import Mathlib

/-!
Verification development for the logical-structure extraction engine of the
repository (`logic_map.py` — static mode, and `lmt.py` — interactive mode).

The Python source is embedded shallowly:

* strings are `List Char` / `String`;
* `textwrap.shorten(text, width, placeholder=" … ")` (used by `_expr` in both
  files) is modelled by `LogicMap.pyShorten`, specialised to the exact
  configuration the source uses: `max_lines=1`, empty indents,
  `drop_whitespace=True`, `break_long_words=True`.  With `max_lines=1` the
  outer `while chunks` loop of `TextWrapper._wrap_chunks` executes its body at
  most once in a way that produces output (a second iteration can only discard
  a trailing whitespace chunk), so the model is a straight-line composition of
  the loop body's phases: greedy fill, long-word breaking, trailing-whitespace
  drop, and the placeholder back-off loop.  The `break_on_hyphens` subdivision
  of hyphenated words inside `_split`/`_handle_long_word` is not modelled; all
  concrete inputs used below are hyphen-free, where the two agree.
* Python exceptions are `Except String`.
-/

namespace LogicMap

/-- Python `str.isspace` characters relevant to `str.split()` / `str.strip()`
on ASCII-ish text: space, tab, newline, carriage return, vertical tab,
form feed. -/
def pyIsSpace (c : Char) : Bool :=
  c = ' ' || c = '\t' || c = '\n' || c = '\r' || c = '\x0b' || c = '\x0c'

/-- Worker for `pySplit`: `cur` is the current word accumulated in reverse. -/
def pySplitGo (cur : List Char) : List Char → List (List Char)
  | [] => if cur.isEmpty then [] else [cur.reverse]
  | c :: rest =>
      if pyIsSpace c then
        if cur.isEmpty then pySplitGo [] rest else cur.reverse :: pySplitGo [] rest
      else pySplitGo (c :: cur) rest

/-- Python `text.split()` (no argument): maximal runs of non-whitespace. -/
def pySplit (l : List Char) : List (List Char) := pySplitGo [] l

/-- Total length of a chunk list. -/
def sumLen (cs : List (List Char)) : Nat := (cs.map List.length).sum

/-- The chunk list `TextWrapper._split` produces for the already collapsed
text `' '.join(text.strip().split())`: the words of `text` interspersed with
single-space separator chunks.  (Hyphen subdivision not modelled.) -/
def toChunks (l : List Char) : List (List Char) :=
  List.intersperse [' '] (pySplit l)

/-- Python `' '.join(text.strip().split())` — the collapsed one-line rendering that
`textwrap.shorten` computes before wrapping. -/
def collapseWs (l : List Char) : List Char := (toChunks l).flatten

/-- The greedy chunk-filling inner loop of `_wrap_chunks`
(`while chunks: ... if cur_len + l <= width: take else break`).
Returns the taken chunks and the remaining chunks. -/
def greedy (w : Nat) (cur : Nat) : List (List Char) → List (List Char) × List (List Char)
  | [] => ([], [])
  | c :: rest =>
      if cur + c.length ≤ w then
        (c :: (greedy w (cur + c.length) rest).1, (greedy w (cur + c.length) rest).2)
      else ([], c :: rest)

/-- Model of `_handle_long_word` (with `break_long_words=True`, hyphen-free chunks),
guarded by `if chunks and len(chunks[-1]) > width` as in `_wrap_chunks`:
`space_left = width - cur_len`; the head chunk's first `space_left` characters
move onto the line, the rest stays as the head chunk. -/
def longWord (w : Nat) (line : List (List Char)) (len0 : Nat) :
    List (List Char) → List (List Char) × List (List Char)
  | [] => (line, [])
  | c :: rs =>
      if w < c.length then
        (line ++ [c.take (w - len0)], (c.drop (w - len0)) :: rs)
      else (line, c :: rs)

/-- The step `if drop_whitespace and cur_line and cur_line[-1].strip() == '': del cur_line[-1]`. -/
def dropTrailWs (line : List (List Char)) : List (List Char) :=
  match line.getLast? with
  | some l => if l.all pyIsSpace then line.dropLast else line
  | none => line

/-- The placeholder `" … "` of `_expr` (`…` is U+2026), as characters. -/
def phChars : List Char := [' ', '…', ' ']

/-- The placeholder back-off loop of `_wrap_chunks`
(`while cur_line: if cur_line[-1].strip() and cur_len + len(placeholder) <= width: ... else pop`).
The argument is `cur_line` reversed (head = last element); returns the kept
reversed line on success, `none` when the loop exhausts `cur_line`. -/
def placeLoop (w : Nat) : List (List Char) → Option (List (List Char))
  | [] => none
  | c :: rest =>
      if (c.any fun ch => !pyIsSpace ch) && sumLen (c :: rest) + phChars.length ≤ w then
        some (c :: rest)
      else placeLoop w rest

/-- Model of `TextWrapper._wrap_chunks` followed by the join in `fill`, specialised to
`max_lines=1`, empty indents, placeholder `" … "`, on a pre-collapsed chunk
list; width validation is done by the caller (`pyShorten`).  Python's
keep-the-line condition carries a further conjunct `cur_len <= width`, omitted
here because it always holds: the greedy loop keeps `cur_len ≤ width`, the
long-word break tops the line up to exactly `width`, and the whitespace drop
only shrinks it.  (`_munge_whitespace` is the identity on the collapsed
text and is not modelled.) -/
def shortenCore (w : Nat) (chunks : List (List Char)) : List Char :=
  let p1 := greedy w 0 chunks
  let p2 := longWord w p1.1 (sumLen p1.1) p1.2
  let line := dropTrailWs p2.1
  let rest := p2.2
  match line with
  | [] => []
  | _ :: _ =>
      if rest.isEmpty || (rest.length == 1 && (rest.headD []).all pyIsSpace) then
        line.flatten
      else
        match placeLoop w line.reverse with
        | some kept => kept.reverse.flatten ++ phChars
        | none => ['…', ' ']

/-- Model of `textwrap.shorten(text, w, placeholder=" … ")`, including the two
`ValueError`s `_wrap_chunks` raises before doing any work: `width <= 0`,
and `len(placeholder.lstrip()) > width` (the lstripped placeholder `"… "`
has length 2).  A negative Python width behaves like the `0` case here. -/
def pyShorten (l : List Char) (w : Nat) : Except String (List Char) :=
  if w = 0 then .error "invalid width 0 (must be > 0)"
  else if w < 2 then .error "placeholder too large for max width"
  else .ok (shortenCore w (toChunks l))

/-! ## Syntax-tree data model

Embedding of the `ast` node shapes the engine inspects.  Expressions are
opaque to the engine except for `ast.unparse` (Py ≥ 3.9 path of `_expr`),
so a `PExpr` carries just its unparsed text.  In Python, no statement can
occur inside an expression, so descending into expression children of a
statement never yields a logical node; consequently statement constructors
record only their statement children (plus the expressions the labels use).
`other` stands for any non-logical statement (`Expr`, `Assign`, `Import`,
...) with its type name and its statement children (empty for all simple
statements).  `With.items` is non-empty by the Python grammar, which
`_label`'s `items[0]` relies on. -/

/-- An expression node, identified by its `ast.unparse` rendering. -/
inductive PExpr where
  | mk (src : String)
deriving DecidableEq

/-- Python `ast.unparse(node)`. -/
def unparse : PExpr → String
  | .mk s => s

mutual
/-- Python statement nodes (the shapes `logic_map.py` distinguishes). -/
inductive Stmt where
  | classDef (lineno : Nat) (name : String) (body : List Stmt)
  | funcDef (lineno : Nat) (name : String) (body : List Stmt)
  | asyncFuncDef (lineno : Nat) (name : String) (body : List Stmt)
  | ifStmt (lineno : Nat) (test : PExpr) (body : List Stmt) (orelse : List Stmt)
  | forStmt (lineno : Nat) (target : PExpr) (iter : PExpr) (body : List Stmt) (orelse : List Stmt)
  | whileStmt (lineno : Nat) (test : PExpr) (body : List Stmt) (orelse : List Stmt)
  | withStmt (lineno : Nat) (item1 : PExpr) (items : List PExpr) (body : List Stmt)
  | tryStmt (lineno : Nat) (body : List Stmt) (handlers : List Handler)
      (orelse : List Stmt) (finalbody : List Stmt)
  | matchStmt (lineno : Nat) (subject : PExpr) (cases : List MatchCase)
  | ret (lineno : Nat) (value : Option PExpr)
  | brk (lineno : Nat)
  | cont (lineno : Nat)
  | raiseStmt (lineno : Nat) (exc : Option PExpr) (cause : Option PExpr)
  | other (lineno : Nat) (typeName : String) (children : List Stmt)

/-- An `ast.ExceptHandler`: optional matched type, optional bound name, body. -/
inductive Handler where
  | mk (lineno : Nat) (typ : Option PExpr) (bound : Option String) (body : List Stmt)

/-- An `ast.match_case`; only its body statements matter to the engine. -/
inductive MatchCase where
  | mk (body : List Stmt)
end

/-- Source line of a statement (`node.lineno`; always present on `ast.stmt`). -/
def Stmt.lineno : Stmt → Nat
  | .classDef ln .. | .funcDef ln .. | .asyncFuncDef ln .. | .ifStmt ln ..
  | .forStmt ln .. | .whileStmt ln .. | .withStmt ln .. | .tryStmt ln ..
  | .matchStmt ln .. | .ret ln .. | .brk ln | .cont ln | .raiseStmt ln ..
  | .other ln .. => ln

/-- Body of a handler. -/
def Handler.body : Handler → List Stmt
  | .mk _ _ _ b => b

/-- The rendered logical tree: a `rich.tree.Tree` node is a label plus an
ordered list of child trees (`Tree.add` appends). -/
inductive LTree where
  | node (label : String) (children : List LTree)

/-- Label of a tree node. -/
def LTree.label : LTree → String
  | .node l _ => l

/-- Children of a tree node. -/
def LTree.children : LTree → List LTree
  | .node _ cs => cs

/-- The options `show_logic_map` threads through the traversal: the classifier
flags (`include_exits`, `include_raises`), `show_lineno`, and the projector
width `expr_width` / `max_expr_len`. -/
structure Config where
  includeExits : Bool := false
  includeRaises : Bool := false
  showLineno : Bool := false
  maxLen : Nat := 60

/-- The Node Classifier: `isinstance(stmt, nodes)` where `nodes` is
`BASE_LOGICAL_NODES` extended by `EXIT_NODES` / `RAISE_NODES` per the flags. -/
def isLogical (cfg : Config) : Stmt → Bool
  | .classDef .. | .funcDef .. | .asyncFuncDef .. | .ifStmt .. | .forStmt ..
  | .whileStmt .. | .withStmt .. | .tryStmt .. | .matchStmt .. => true
  | .ret .. | .brk .. | .cont .. => cfg.includeExits
  | .raiseStmt .. => cfg.includeRaises
  | .other .. => false

/-! ## Expression Projector (`_expr`) -/

/-- The step `code.replace("\n", " ")` from `_expr`. -/
def replaceNl (l : List Char) : List Char :=
  l.map fun c => if c = '\n' then ' ' else c

/-- Model of `_expr(node, max_len)` with the Py ≥ 3.9 `ast.unparse` path:
`shorten(code.replace("\n", " "), width=max_len, placeholder=" … ")`,
propagating the `ValueError`s `shorten` can raise. -/
def exprProjE (e : PExpr) (w : Nat) : Except String String :=
  match pyShorten (replaceNl (unparse e).data) w with
  | .ok l => .ok ⟨l⟩
  | .error m => .error m

/-- The non-raising value of `_expr(node, max_len)`; agrees with `exprProjE`
whenever `2 ≤ w` (see `exprProjE_ok`). -/
def exprProjP (e : PExpr) (w : Nat) : String :=
  ⟨shortenCore w (toChunks (replaceNl (unparse e).data))⟩

/-! ## Label Formatter (`_label`, `_with_lineno_text`) -/

/-- Model of `_with_lineno_text(text, lineno, show)`; also the behaviour of the
`with_lineno` closure inside `_label` (every `ast.stmt` has a `lineno`). -/
def withLinenoText (text : String) (lineno : Option Nat) (showLn : Bool) : String :=
  if showLn then
    match lineno with
    | some n => text ++ " [dim](L" ++ toString n ++ ")[/]"
    | none => text
  else text

/-- Model of `_label(node, max_len=w, show_lineno=showLn)` (non-raising value). -/
def labelP (w : Nat) (showLn : Bool) : Stmt → String
  | .classDef ln name _ =>
      withLinenoText ("[cyan]class[/] [bold]" ++ name) (some ln) showLn
  | .funcDef ln name _ =>
      withLinenoText ("[green]def[/] [bold]" ++ name ++ "()") (some ln) showLn
  | .asyncFuncDef ln name _ =>
      withLinenoText ("[green]async def[/] [bold]" ++ name ++ "()") (some ln) showLn
  | .ifStmt ln t _ _ =>
      withLinenoText ("[magenta]if[/] " ++ exprProjP t w) (some ln) showLn
  | .forStmt ln tg it _ _ =>
      withLinenoText ("[magenta]for[/] " ++ exprProjP tg w ++ " in " ++ exprProjP it w)
        (some ln) showLn
  | .whileStmt ln t _ _ =>
      withLinenoText ("[magenta]while[/] " ++ exprProjP t w) (some ln) showLn
  | .withStmt ln i1 _ _ =>
      withLinenoText ("[magenta]with[/] " ++ exprProjP i1 w) (some ln) showLn
  | .tryStmt ln _ _ _ _ =>
      withLinenoText "[magenta]try[/]" (some ln) showLn
  | .matchStmt ln subj _ =>
      withLinenoText ("[magenta]match[/] " ++ exprProjP subj w) (some ln) showLn
  | .ret ln none =>
      withLinenoText "[red]return[/]" (some ln) showLn
  | .ret ln (some v) =>
      withLinenoText ("[red]return[/] " ++ exprProjP v w) (some ln) showLn
  | .brk ln =>
      withLinenoText "[red]break[/]" (some ln) showLn
  | .cont ln =>
      withLinenoText "[red]continue[/]" (some ln) showLn
  | .raiseStmt ln none _ =>
      withLinenoText "[red]raise[/]" (some ln) showLn
  | .raiseStmt ln (some e) none =>
      withLinenoText ("[red]raise[/] " ++ exprProjP e w) (some ln) showLn
  | .raiseStmt ln (some e) (some c) =>
      withLinenoText ("[red]raise[/] " ++ exprProjP e w ++ " from " ++ exprProjP c w)
        (some ln) showLn
  | .other ln tn _ =>
      withLinenoText tn (some ln) showLn

/-- The `except` branch label built inside `_add_children` for one handler:
`"[magenta]except[/]" + (f" {exc}{name}" if exc or name else "")` with
`exc = _expr(h.type)` when the type is present (else `""`) and
`name = f" as {h.name}"` when the bound name is truthy (else `""`),
then `_with_lineno_text(label, h.lineno, show_lineno)` (non-raising value). -/
def exceptLabelP (w : Nat) (showLn : Bool) : Handler → String
  | .mk ln typ bound _ =>
      let exc := match typ with | some t => exprProjP t w | none => ""
      let nm := match bound with
        | some n => if n = "" then "" else " as " ++ n
        | none => ""
      let lbl := "[magenta]except[/]" ++ (if exc = "" ∧ nm = "" then "" else " " ++ exc ++ nm)
      withLinenoText lbl (some ln) showLn

/-- Best-effort line for a synthetic `else`/`finally` branch: the first
statement's `lineno` when the clause is non-empty (`getattr(stmts[0], "lineno", None)`). -/
def firstLineno : List Stmt → Option Nat
  | [] => none
  | s :: _ => some s.lineno

/-! ## Fold Engine (`_add_children` / `_add_stmt_list`), non-raising values

`_add_children(branch, node, ...)` appends children to `branch`; the model
returns the list it appends.  `addStmtListP` is `_add_stmt_list`; the generic
descent arm of `_add_children` (`for child in ast.iter_child_nodes(node)`) is
the same loop over the node's statement children (its expression children
contain no logical nodes and contribute nothing). -/

mutual
/-- Children appended by `_add_children(branch, node, nodes, ...)`.  (For the
`If` arm the source writes the else label as
`"[magenta]else//[/]".replace("//", "")`, which equals `"[magenta]else[/]"`.) -/
def addChildrenP (cfg : Config) : Stmt → List LTree
  | .tryStmt _ body handlers orelse finalbody =>
      addStmtListP cfg body
        ++ addHandlersP cfg handlers
        ++ synthBranchP cfg "[magenta]else[/]" orelse
        ++ synthBranchP cfg "[magenta]finally[/]" finalbody
  | .ifStmt _ _ body orelse =>
      addStmtListP cfg body ++ synthBranchP cfg "[magenta]else[/]" orelse
  | .forStmt _ _ _ body orelse =>
      addStmtListP cfg body ++ synthBranchP cfg "[magenta]else[/]" orelse
  | .whileStmt _ _ body orelse =>
      addStmtListP cfg body ++ synthBranchP cfg "[magenta]else[/]" orelse
  | .classDef _ _ body => addStmtListP cfg body
  | .funcDef _ _ body => addStmtListP cfg body
  | .asyncFuncDef _ _ body => addStmtListP cfg body
  | .withStmt _ _ _ body => addStmtListP cfg body
  | .matchStmt _ _ cases => addCasesP cfg cases
  | .ret _ _ => []
  | .brk _ => []
  | .cont _ => []
  | .raiseStmt _ _ _ => []
  | .other _ _ children => addStmtListP cfg children
termination_by s => (sizeOf s, 0)

/-- The `if node.orelse:` / `if node.finalbody:` arms of `_add_children`: an
empty clause adds nothing; a non-empty one adds one labeled branch (line from
the clause's first statement) holding the clause's folded statements. -/
def synthBranchP (cfg : Config) (lbl : String) : List Stmt → List LTree
  | [] => []
  | s :: rest =>
      [.node (withLinenoText lbl (some s.lineno) cfg.showLineno)
        (addStmtListP cfg (s :: rest))]
termination_by l => (sizeOf l, 1)

/-- Children appended by `_add_stmt_list(branch, stmts, nodes, ...)`. -/
def addStmtListP (cfg : Config) : List Stmt → List LTree
  | [] => []
  | s :: rest =>
      (if isLogical cfg s then
        [.node (labelP cfg.maxLen cfg.showLineno s) (addChildrenP cfg s)]
       else addChildrenP cfg s) ++ addStmtListP cfg rest
termination_by l => (sizeOf l, 0)

/-- The `for h in node.handlers` loop of `_add_children`'s `Try` arm. -/
def addHandlersP (cfg : Config) : List Handler → List LTree
  | [] => []
  | .mk ln typ bound hbody :: rest =>
      .node (exceptLabelP cfg.maxLen cfg.showLineno (.mk ln typ bound hbody))
          (addStmtListP cfg hbody)
        :: addHandlersP cfg rest
termination_by l => (sizeOf l, 0)

/-- Generic descent through the (non-logical) `match_case` children of an
`ast.Match` node: each case's body statements fold into the same branch. -/
def addCasesP (cfg : Config) : List MatchCase → List LTree
  | [] => []
  | .mk cbody :: rest => addStmtListP cfg cbody ++ addCasesP cfg rest
termination_by l => (sizeOf l, 0)
end

/-- The tree `show_logic_map` builds from a parsed module body (non-raising
value): root labeled `f"[bold bright_blue]{name}"`, children from the generic
descent through `ast.Module` (its `body` statements). -/
def buildTreeP (name : String) (cfg : Config) (body : List Stmt) : LTree :=
  .node ("[bold bright_blue]" ++ name) (addStmtListP cfg body)

/-! ## The same pipeline with Python exception propagation

`_expr` can raise `ValueError` out of `shorten` (width ≤ 1); nothing in
`_label`, `_add_children`, `_add_stmt_list` or `show_logic_map` catches it.
These `..E` functions are the same source functions with that propagation made
explicit; `labelE_ok` etc. below relate them to the `..P` values. -/

/-- Model of `_label(node, max_len=w, show_lineno=showLn)` with `ValueError` propagation. -/
def labelE (w : Nat) (showLn : Bool) : Stmt → Except String String
  | .classDef ln name _ =>
      pure (withLinenoText ("[cyan]class[/] [bold]" ++ name) (some ln) showLn)
  | .funcDef ln name _ =>
      pure (withLinenoText ("[green]def[/] [bold]" ++ name ++ "()") (some ln) showLn)
  | .asyncFuncDef ln name _ =>
      pure (withLinenoText ("[green]async def[/] [bold]" ++ name ++ "()") (some ln) showLn)
  | .ifStmt ln t _ _ => do
      let s ← exprProjE t w
      pure (withLinenoText ("[magenta]if[/] " ++ s) (some ln) showLn)
  | .forStmt ln tg it _ _ => do
      let s1 ← exprProjE tg w
      let s2 ← exprProjE it w
      pure (withLinenoText ("[magenta]for[/] " ++ s1 ++ " in " ++ s2) (some ln) showLn)
  | .whileStmt ln t _ _ => do
      let s ← exprProjE t w
      pure (withLinenoText ("[magenta]while[/] " ++ s) (some ln) showLn)
  | .withStmt ln i1 _ _ => do
      let s ← exprProjE i1 w
      pure (withLinenoText ("[magenta]with[/] " ++ s) (some ln) showLn)
  | .tryStmt ln _ _ _ _ =>
      pure (withLinenoText "[magenta]try[/]" (some ln) showLn)
  | .matchStmt ln subj _ => do
      let s ← exprProjE subj w
      pure (withLinenoText ("[magenta]match[/] " ++ s) (some ln) showLn)
  | .ret ln none =>
      pure (withLinenoText "[red]return[/]" (some ln) showLn)
  | .ret ln (some v) => do
      let s ← exprProjE v w
      pure (withLinenoText ("[red]return[/] " ++ s) (some ln) showLn)
  | .brk ln =>
      pure (withLinenoText "[red]break[/]" (some ln) showLn)
  | .cont ln =>
      pure (withLinenoText "[red]continue[/]" (some ln) showLn)
  | .raiseStmt ln none _ =>
      pure (withLinenoText "[red]raise[/]" (some ln) showLn)
  | .raiseStmt ln (some e) none => do
      let s ← exprProjE e w
      pure (withLinenoText ("[red]raise[/] " ++ s) (some ln) showLn)
  | .raiseStmt ln (some e) (some c) => do
      let s1 ← exprProjE e w
      let s2 ← exprProjE c w
      pure (withLinenoText ("[red]raise[/] " ++ s1 ++ " from " ++ s2) (some ln) showLn)
  | .other ln tn _ =>
      pure (withLinenoText tn (some ln) showLn)

/-- The handler branch label with `ValueError` propagation. -/
def exceptLabelE (w : Nat) (showLn : Bool) : Handler → Except String String
  | .mk ln typ bound _ => do
      let exc ← match typ with | some t => exprProjE t w | none => pure ""
      let nm := match bound with
        | some n => if n = "" then "" else " as " ++ n
        | none => ""
      let lbl := "[magenta]except[/]" ++ (if exc = "" ∧ nm = "" then "" else " " ++ exc ++ nm)
      pure (withLinenoText lbl (some ln) showLn)

mutual
/-- Model of `_add_children` with `ValueError` propagation. -/
def addChildrenE (cfg : Config) : Stmt → Except String (List LTree)
  | .tryStmt _ body handlers orelse finalbody => do
      let bs ← addStmtListE cfg body
      let hs ← addHandlersE cfg handlers
      let es ← synthBranchE cfg "[magenta]else[/]" orelse
      let fs ← synthBranchE cfg "[magenta]finally[/]" finalbody
      pure (bs ++ hs ++ es ++ fs)
  | .ifStmt _ _ body orelse => do
      let bs ← addStmtListE cfg body
      let es ← synthBranchE cfg "[magenta]else[/]" orelse
      pure (bs ++ es)
  | .forStmt _ _ _ body orelse => do
      let bs ← addStmtListE cfg body
      let es ← synthBranchE cfg "[magenta]else[/]" orelse
      pure (bs ++ es)
  | .whileStmt _ _ body orelse => do
      let bs ← addStmtListE cfg body
      let es ← synthBranchE cfg "[magenta]else[/]" orelse
      pure (bs ++ es)
  | .classDef _ _ body => addStmtListE cfg body
  | .funcDef _ _ body => addStmtListE cfg body
  | .asyncFuncDef _ _ body => addStmtListE cfg body
  | .withStmt _ _ _ body => addStmtListE cfg body
  | .matchStmt _ _ cases => addCasesE cfg cases
  | .ret _ _ => pure []
  | .brk _ => pure []
  | .cont _ => pure []
  | .raiseStmt _ _ _ => pure []
  | .other _ _ children => addStmtListE cfg children
termination_by s => (sizeOf s, 0)

/-- The else/finally clause arms with `ValueError` propagation. -/
def synthBranchE (cfg : Config) (lbl : String) : List Stmt → Except String (List LTree)
  | [] => pure []
  | s :: rest => do
      let cs ← addStmtListE cfg (s :: rest)
      pure [LTree.node (withLinenoText lbl (some s.lineno) cfg.showLineno) cs]
termination_by l => (sizeOf l, 1)

/-- Model of `_add_stmt_list` with `ValueError` propagation. -/
def addStmtListE (cfg : Config) : List Stmt → Except String (List LTree)
  | [] => pure []
  | s :: rest => do
      let first ←
        if isLogical cfg s then do
          let lbl ← labelE cfg.maxLen cfg.showLineno s
          let cs ← addChildrenE cfg s
          pure [LTree.node lbl cs]
        else addChildrenE cfg s
      let more ← addStmtListE cfg rest
      pure (first ++ more)
termination_by l => (sizeOf l, 0)

/-- The handler loop with `ValueError` propagation. -/
def addHandlersE (cfg : Config) : List Handler → Except String (List LTree)
  | [] => pure []
  | .mk ln typ bound hbody :: rest => do
      let lbl ← exceptLabelE cfg.maxLen cfg.showLineno (.mk ln typ bound hbody)
      let cs ← addStmtListE cfg hbody
      let more ← addHandlersE cfg rest
      pure (LTree.node lbl cs :: more)
termination_by l => (sizeOf l, 0)

/-- Generic descent through `match_case` children with `ValueError` propagation. -/
def addCasesE (cfg : Config) : List MatchCase → Except String (List LTree)
  | [] => pure []
  | .mk cbody :: rest => do
      let cs ← addStmtListE cfg cbody
      let more ← addCasesE cfg rest
      pure (cs ++ more)
termination_by l => (sizeOf l, 0)
end

/-- The tree-building part of `show_logic_map` on an already parsed module
body, with exception propagation. -/
def buildTreeE (name : String) (cfg : Config) (body : List Stmt) : Except String LTree := do
  let cs ← addStmtListE cfg body
  pure (.node ("[bold bright_blue]" ++ name) cs)

/-- The behaviour of `show_logic_map` as a function of the outcome of
`ast.parse(source, filename=name)` (the external parser): the call is *not*
wrapped in any `try`/`except`, so a parse failure propagates to the caller,
and otherwise the tree is built and printed. -/
def showLogicMapE (name : String) (parseResult : Except String (List Stmt))
    (cfg : Config) : Except String LTree := do
  let body ← parseResult
  buildTreeE name cfg body

/-! ## The interactive viewer (`lmt.py`)

`LOGICAL_NODES` there additionally contains `ast.ExceptHandler` (handlers are
shown via the generic rule, not synthesised) but no exit/raise kinds, and
`_populate` recurses only into *logical* children: a non-logical child is
neither shown nor descended through.  `_label` there builds plain `rich.text.Text`;
the model records the concatenated text content.  Its `_expr` is an identical
copy of the one in `logic_map.py`, always called with the default
`max_len = 60`. -/

/-- The classifier of `lmt.py` (`isinstance(child, LOGICAL_NODES)`). -/
def lmtLogical : Stmt → Bool
  | .classDef .. | .funcDef .. | .asyncFuncDef .. | .ifStmt .. | .forStmt ..
  | .whileStmt .. | .withStmt .. | .tryStmt .. | .matchStmt .. => true
  | .ret .. | .brk .. | .cont .. | .raiseStmt .. | .other .. => false

/-- Text content of `lmt.py`'s `_label(node)` for statements. -/
def lmtLabel : Stmt → String
  | .classDef _ name _ => "class " ++ name
  | .funcDef _ name _ => "def " ++ name ++ "()"
  | .asyncFuncDef _ name _ => "async def " ++ name ++ "()"
  | .ifStmt _ t _ _ => "if " ++ exprProjP t 60
  | .forStmt _ tg it _ _ => "for " ++ exprProjP tg 60 ++ " in " ++ exprProjP it 60
  | .whileStmt _ t _ _ => "while " ++ exprProjP t 60
  | .withStmt _ i1 items _ =>
      "with " ++ String.intercalate ", " ((i1 :: items).map fun i => exprProjP i 60)
  | .tryStmt .. => "try"
  | .matchStmt _ subj _ => "match " ++ exprProjP subj 60
  | .ret .. => "Return"
  | .brk _ => "Break"
  | .cont _ => "Continue"
  | .raiseStmt .. => "Raise"
  | .other _ tn _ => tn

/-- Text content of `lmt.py`'s `_label` for an `ast.ExceptHandler`:
`"except"` when the type is absent, else `"except "` plus the projected type
(the bound name is not shown there). -/
def lmtHandlerLabel : Handler → String
  | .mk _ none _ _ => "except"
  | .mk _ (some t) _ _ => "except " ++ exprProjP t 60

mutual
/-- Children `_populate(tree_node, ast_node)` adds for one statement node:
its logical children in `ast.iter_child_nodes` order (for `Try` this
interleaves body, handlers, else and finally statements in field order);
non-logical children are dropped without descent. -/
def lmtNodeChildren : Stmt → List LTree
  | .tryStmt _ body handlers orelse finalbody =>
      lmtStmts body ++ lmtHandlers handlers ++ lmtStmts orelse ++ lmtStmts finalbody
  | .ifStmt _ _ body orelse => lmtStmts body ++ lmtStmts orelse
  | .forStmt _ _ _ body orelse => lmtStmts body ++ lmtStmts orelse
  | .whileStmt _ _ body orelse => lmtStmts body ++ lmtStmts orelse
  | .classDef _ _ body => lmtStmts body
  | .funcDef _ _ body => lmtStmts body
  | .asyncFuncDef _ _ body => lmtStmts body
  | .withStmt _ _ _ body => lmtStmts body
  | .matchStmt _ _ _ => []
  | .ret _ _ => []
  | .brk _ => []
  | .cont _ => []
  | .raiseStmt _ _ _ => []
  | .other _ _ _ => []

/-- The loop of `_populate` over a list of child statements. -/
def lmtStmts : List Stmt → List LTree
  | [] => []
  | s :: rest =>
      (if lmtLogical s then [.node (lmtLabel s) (lmtNodeChildren s)] else []) ++ lmtStmts rest

/-- The treatment by `_populate` of the handler children of a `Try` node
(handlers are logical in `lmt.py`; their children are their body's logical
statements). -/
def lmtHandlers : List Handler → List LTree
  | [] => []
  | .mk ln typ bound hbody :: rest =>
      .node (lmtHandlerLabel (.mk ln typ bound hbody)) (lmtStmts hbody) :: lmtHandlers rest
end

/-- Model of `LogicMapApp.compose` as a function of the outcome of
`ast.parse(self._source, ...)`: the parse *is* wrapped in
`try ... except SyntaxError`, and on failure the root gets the single child
`Text(f"SyntaxError: {err}")`; on success `_populate` fills the root. -/
def lmtCompose (name : String) (parseResult : Except String (List Stmt)) : LTree :=
  match parseResult with
  | .ok body => .node ("[bold bright_blue]" ++ name) (lmtStmts body)
  | .error err => .node ("[bold bright_blue]" ++ name) [.node ("SyntaxError: " ++ err) []]

/-- A word as produced by `str.split()`: non-empty, no whitespace characters. -/
def goodWord (wd : List Char) : Prop := wd ≠ [] ∧ ∀ c ∈ wd, pyIsSpace c = false

/-! ## Nearest-logical-descendant specification (for C7)

`nlStmt`/`nlList` are written from the spec's invariant wording, not from the
source: the logically-significant descendants of a statement list in document
order, where a non-logical statement is skipped through to its own statement
children without re-parenting. -/

mutual
/-- Nearest logical descendants reached through one *non-logical* statement
(a logical statement contributes nothing here; see `nlList`). -/
def nlStmt (cfg : Config) : Stmt → List Stmt
  | .other _ _ children => nlList cfg children
  | _ => []
termination_by s => sizeOf s

/-- Nearest logical descendants of a statement list, in document order. -/
def nlList (cfg : Config) : List Stmt → List Stmt
  | [] => []
  | s :: rest => (if isLogical cfg s then [s] else nlStmt cfg s) ++ nlList cfg rest
termination_by l => sizeOf l
end

/-! ## Flag monotonicity (for C10) -/

/-- The labels of nodes that enabling a classifier flag can add: exit labels
(`return`/`break`/`continue`, with their value/line suffixes) when
`include_exits` is off in the smaller configuration, raise labels when
`include_raises` is off. -/
def redDropLabel (includeExits includeRaises : Bool) (l : String) : Prop :=
  (includeExits = false ∧
    ∃ r, l = "[red]return[/]" ++ r ∨ l = "[red]break[/]" ++ r ∨ l = "[red]continue[/]" ++ r) ∨
  (includeRaises = false ∧ ∃ r, l = "[red]raise[/]" ++ r)

/-- Modelled from the claim's wording: `InsertsOnly P small big` — every node
of `small` appears in `big` with the same label, the same (recursively
related) children, under the same parent and in the same relative order;
`big` may additionally contain inserted *leaf* nodes whose labels satisfy
`P`. -/
inductive InsertsOnly (P : String → Prop) : List LTree → List LTree → Prop where
  | nil : InsertsOnly P [] []
  | keep {lbl : String} {cs cs' ts ts' : List LTree} :
      InsertsOnly P cs cs' → InsertsOnly P ts ts' →
      InsertsOnly P (LTree.node lbl cs :: ts) (LTree.node lbl cs' :: ts')
  | insert {lbl : String} {ts ts' : List LTree} :
      P lbl → InsertsOnly P ts ts' → InsertsOnly P ts (LTree.node lbl [] :: ts')

/-! ## Relating the exception-propagating pipeline to the non-raising values

When the projector width is at least 2 (in particular at the default 60),
`shorten` cannot raise, and the whole traversal computes the `..P` values. -/

theorem exprProjE_ok (e : PExpr) (w : Nat) (h : 2 ≤ w) :
    exprProjE e w = .ok (exprProjP e w) := by
  have h0 : w ≠ 0 := by omega
  have h1 : ¬ w < 2 := by omega
  simp [exprProjE, pyShorten, exprProjP, h0, h1]

theorem labelE_ok (w : Nat) (sl : Bool) (h : 2 ≤ w) (s : Stmt) :
    labelE w sl s = .ok (labelP w sl s) := by
  cases s with
  | ret ln value =>
      cases value <;> simp [labelE, labelP, exprProjE_ok _ _ h, pure, Except.pure, bind, Except.bind]
  | raiseStmt ln e c =>
      cases e <;> cases c <;>
        simp [labelE, labelP, exprProjE_ok _ _ h, pure, Except.pure, bind, Except.bind]
  | _ => simp [labelE, labelP, exprProjE_ok _ _ h, pure, Except.pure, bind, Except.bind]

theorem exceptLabelE_ok (w : Nat) (sl : Bool) (h : 2 ≤ w) (hd : Handler) :
    exceptLabelE w sl hd = .ok (exceptLabelP w sl hd) := by
  obtain ⟨ln, typ, bound, body⟩ := hd
  cases typ <;> simp [exceptLabelE, exceptLabelP, exprProjE_ok _ _ h, pure, Except.pure, bind, Except.bind]

mutual
/-- With a projector width of at least 2, `_add_children` cannot raise and
computes the non-raising value. -/
theorem addChildrenE_ok (cfg : Config) (h : 2 ≤ cfg.maxLen) :
    ∀ s, addChildrenE cfg s = .ok (addChildrenP cfg s)
  | .tryStmt ln body handlers orelse finalbody => by
      have hb := addStmtListE_ok cfg h body
      have hh := addHandlersE_ok cfg h handlers
      have ho := synthBranchE_ok cfg h "[magenta]else[/]" orelse
      have hf := synthBranchE_ok cfg h "[magenta]finally[/]" finalbody
      simp [addChildrenE, addChildrenP, hb, hh, ho, hf, bind, Except.bind, pure, Except.pure]
  | .ifStmt ln t body orelse => by
      have hb := addStmtListE_ok cfg h body
      have ho := synthBranchE_ok cfg h "[magenta]else[/]" orelse
      simp [addChildrenE, addChildrenP, hb, ho, bind, Except.bind, pure, Except.pure]
  | .forStmt ln tg it body orelse => by
      have hb := addStmtListE_ok cfg h body
      have ho := synthBranchE_ok cfg h "[magenta]else[/]" orelse
      simp [addChildrenE, addChildrenP, hb, ho, bind, Except.bind, pure, Except.pure]
  | .whileStmt ln t body orelse => by
      have hb := addStmtListE_ok cfg h body
      have ho := synthBranchE_ok cfg h "[magenta]else[/]" orelse
      simp [addChildrenE, addChildrenP, hb, ho, bind, Except.bind, pure, Except.pure]
  | .classDef ln nm body => by
      simpa [addChildrenE, addChildrenP] using addStmtListE_ok cfg h body
  | .funcDef ln nm body => by
      simpa [addChildrenE, addChildrenP] using addStmtListE_ok cfg h body
  | .asyncFuncDef ln nm body => by
      simpa [addChildrenE, addChildrenP] using addStmtListE_ok cfg h body
  | .withStmt ln i1 items body => by
      simpa [addChildrenE, addChildrenP] using addStmtListE_ok cfg h body
  | .matchStmt ln subj cases_ => by
      simpa [addChildrenE, addChildrenP] using addCasesE_ok cfg h cases_
  | .ret ln v => by simp [addChildrenE, addChildrenP, pure, Except.pure]
  | .brk ln => by simp [addChildrenE, addChildrenP, pure, Except.pure]
  | .cont ln => by simp [addChildrenE, addChildrenP, pure, Except.pure]
  | .raiseStmt ln e c => by simp [addChildrenE, addChildrenP, pure, Except.pure]
  | .other ln tn children => by
      simpa [addChildrenE, addChildrenP] using addStmtListE_ok cfg h children
termination_by s => (sizeOf s, 0)

/-- With a projector width of at least 2, the else/finally clause arms cannot raise. -/
theorem synthBranchE_ok (cfg : Config) (h : 2 ≤ cfg.maxLen) (lbl : String) :
    ∀ l, synthBranchE cfg lbl l = .ok (synthBranchP cfg lbl l)
  | [] => by simp [synthBranchE, synthBranchP, pure, Except.pure]
  | s :: rest => by
      have hb := addStmtListE_ok cfg h (s :: rest)
      simp [synthBranchE, synthBranchP, hb, bind, Except.bind, pure, Except.pure]
termination_by l => (sizeOf l, 1)

/-- With a projector width of at least 2, `_add_stmt_list` cannot raise. -/
theorem addStmtListE_ok (cfg : Config) (h : 2 ≤ cfg.maxLen) :
    ∀ l, addStmtListE cfg l = .ok (addStmtListP cfg l)
  | [] => by simp [addStmtListE, addStmtListP, pure, Except.pure]
  | s :: rest => by
      have hs := addChildrenE_ok cfg h s
      have hr := addStmtListE_ok cfg h rest
      by_cases hl : isLogical cfg s = true
      · simp [addStmtListE, addStmtListP, hl, hs, hr, labelE_ok _ _ h,
          bind, Except.bind, pure, Except.pure]
      · simp [addStmtListE, addStmtListP, hl, hs, hr, bind, Except.bind, pure, Except.pure]
termination_by l => (sizeOf l, 0)

/-- With a projector width of at least 2, the handler loop cannot raise. -/
theorem addHandlersE_ok (cfg : Config) (h : 2 ≤ cfg.maxLen) :
    ∀ l, addHandlersE cfg l = .ok (addHandlersP cfg l)
  | [] => by simp [addHandlersE, addHandlersP, pure, Except.pure]
  | .mk ln typ bound hbody :: rest => by
      have hb := addStmtListE_ok cfg h hbody
      have hr := addHandlersE_ok cfg h rest
      simp [addHandlersE, addHandlersP, hb, hr, exceptLabelE_ok _ _ h,
        bind, Except.bind, pure, Except.pure]
termination_by l => (sizeOf l, 0)

/-- With a projector width of at least 2, the `match_case` descent cannot raise. -/
theorem addCasesE_ok (cfg : Config) (h : 2 ≤ cfg.maxLen) :
    ∀ l, addCasesE cfg l = .ok (addCasesP cfg l)
  | [] => by simp [addCasesE, addCasesP, pure, Except.pure]
  | .mk cbody :: rest => by
      have hb := addStmtListE_ok cfg h cbody
      have hr := addCasesE_ok cfg h rest
      simp [addCasesE, addCasesP, hb, hr, bind, Except.bind, pure, Except.pure]
termination_by l => (sizeOf l, 0)
end

/-- With a projector width of at least 2, the whole static build cannot raise. -/
theorem buildTreeE_ok (name : String) (cfg : Config) (h : 2 ≤ cfg.maxLen)
    (body : List Stmt) : buildTreeE name cfg body = .ok (buildTreeP name cfg body) := by
  simp [buildTreeE, buildTreeP, addStmtListE_ok cfg h body, bind, Except.bind, pure, Except.pure]

/-- The handler loop produces exactly one branch per handler, in order. -/
theorem addHandlersP_eq_map (cfg : Config) :
    ∀ hs, addHandlersP cfg hs =
      hs.map fun hd =>
        LTree.node (exceptLabelP cfg.maxLen cfg.showLineno hd) (addStmtListP cfg hd.body) := by
  intro hs
  induction hs with
  | nil => simp [addHandlersP]
  | cons hd rest ih => obtain ⟨ln, typ, bound, hbody⟩ := hd; simp [addHandlersP, Handler.body, ih]

/-! ## Claims -/

/-- Claim C1: for an `ast.Try` with handlers, an else clause and a finally
clause, `_add_children` emits exactly, in this order: the folded body
statements, one branch per handler in declaration order, one `else` branch,
one `finally` branch; a handler's branch label is the bare `except` label when
both the matched type and the bound name are absent, and
`except <projected type> as <name>` when both are present (and the projected
type is non-empty, matching Python's truthiness test on the formatted parts). -/
theorem try_block_children_order (cfg : Config) (ln : Nat) (body : List Stmt)
    (handlers : List Handler) (orelse finalbody : List Stmt)
    (ho : orelse ≠ []) (hf : finalbody ≠ []) :
    addChildrenP cfg (.tryStmt ln body handlers orelse finalbody) =
      addStmtListP cfg body
        ++ handlers.map (fun hd =>
             LTree.node (exceptLabelP cfg.maxLen cfg.showLineno hd) (addStmtListP cfg hd.body))
        ++ [LTree.node (withLinenoText "[magenta]else[/]" (firstLineno orelse) cfg.showLineno)
             (addStmtListP cfg orelse)]
        ++ [LTree.node (withLinenoText "[magenta]finally[/]" (firstLineno finalbody) cfg.showLineno)
             (addStmtListP cfg finalbody)]
      ∧ (∀ hln hbody, exceptLabelP cfg.maxLen cfg.showLineno (.mk hln none none hbody) =
           withLinenoText "[magenta]except[/]" (some hln) cfg.showLineno)
      ∧ (∀ hln t nm hbody, nm ≠ "" → exprProjP t cfg.maxLen ≠ "" →
           exceptLabelP cfg.maxLen cfg.showLineno (.mk hln (some t) (some nm) hbody) =
             withLinenoText ("[magenta]except[/] " ++ exprProjP t cfg.maxLen ++ " as " ++ nm)
               (some hln) cfg.showLineno) := by
  refine ⟨?_, ?_, ?_⟩
  · obtain ⟨o, os, rfl⟩ : ∃ o os, orelse = o :: os := by
      cases orelse with
      | nil => exact absurd rfl ho
      | cons o os => exact ⟨o, os, rfl⟩
    obtain ⟨f, fs, rfl⟩ : ∃ f fs, finalbody = f :: fs := by
      cases finalbody with
      | nil => exact absurd rfl hf
      | cons f fs => exact ⟨f, fs, rfl⟩
    simp [addChildrenP, synthBranchP, firstLineno, addHandlersP_eq_map]
  · intro hln hbody
    simp [exceptLabelP]
  · intro hln t nm hbody hnm ht
    simp only [exceptLabelP, if_neg hnm]
    rw [if_neg (fun hc => ht hc.1)]
    have h1 : ("[magenta]except[/]" : String) ++ " " = "[magenta]except[/] " := rfl
    simp only [← String.append_assoc, h1]

/-- Concrete instance of C1: a `try` with two handlers, an `else` and a
`finally`, at the default configuration. -/
theorem try_block_children_order_witness :
    (([Stmt.other 8 "Expr" []] : List Stmt) ≠ [] ∧ ([Stmt.other 10 "Expr" []] : List Stmt) ≠ []) ∧
    (addChildrenP {} (.tryStmt 1 [.other 2 "Expr" []]
        [.mk 4 (some (.mk "ValueError")) (some "e") [.other 5 "Expr" []],
         .mk 6 none none [.other 7 "Pass" []]]
        [.other 8 "Expr" []] [.other 10 "Expr" []]) =
      addStmtListP {} [.other 2 "Expr" []]
        ++ ([Handler.mk 4 (some (.mk "ValueError")) (some "e") [.other 5 "Expr" []],
             Handler.mk 6 none none [.other 7 "Pass" []]].map fun hd =>
               LTree.node (exceptLabelP (60 : Nat) false hd) (addStmtListP {} hd.body))
        ++ [LTree.node (withLinenoText "[magenta]else[/]" (firstLineno [.other 8 "Expr" []]) false)
             (addStmtListP {} [.other 8 "Expr" []])]
        ++ [LTree.node (withLinenoText "[magenta]finally[/]" (firstLineno [.other 10 "Expr" []]) false)
             (addStmtListP {} [.other 10 "Expr" []])]) :=
  ⟨⟨by simp, by simp⟩,
    (try_block_children_order {} 1 [.other 2 "Expr" []]
      [.mk 4 (some (.mk "ValueError")) (some "e") [.other 5 "Expr" []],
       .mk 6 none none [.other 7 "Pass" []]]
      [.other 8 "Expr" []] [.other 10 "Expr" []] (by simp) (by simp)).1⟩

/-- Claim C6: a `for` or `while` loop with a non-empty else clause gets
exactly one trailing `else` branch (holding the folded clause) after the
children folded from the loop body; with an empty clause the children are the
folded body alone, no such branch. -/
theorem loop_else_branch (cfg : Config) (ln : Nat) (tg it t : PExpr)
    (body orelse : List Stmt) :
    (orelse ≠ [] →
      addChildrenP cfg (.forStmt ln tg it body orelse) =
        addStmtListP cfg body
          ++ [LTree.node (withLinenoText "[magenta]else[/]" (firstLineno orelse) cfg.showLineno)
               (addStmtListP cfg orelse)] ∧
      addChildrenP cfg (.whileStmt ln t body orelse) =
        addStmtListP cfg body
          ++ [LTree.node (withLinenoText "[magenta]else[/]" (firstLineno orelse) cfg.showLineno)
               (addStmtListP cfg orelse)]) ∧
    (orelse = [] →
      addChildrenP cfg (.forStmt ln tg it body orelse) = addStmtListP cfg body ∧
      addChildrenP cfg (.whileStmt ln t body orelse) = addStmtListP cfg body) := by
  constructor
  · intro ho
    obtain ⟨o, os, rfl⟩ : ∃ o os, orelse = o :: os := by
      cases orelse with
      | nil => exact absurd rfl ho
      | cons o os => exact ⟨o, os, rfl⟩
    constructor <;> simp [addChildrenP, synthBranchP, firstLineno]
  · rintro rfl
    constructor <;> simp [addChildrenP, synthBranchP]

/-- Concrete instance of C6: `for i in range(3): break` with and without an
else clause, at the default configuration. -/
theorem loop_else_branch_witness :
    (([Stmt.other 3 "Expr" []] : List Stmt) ≠ [] →
      addChildrenP {} (.forStmt 1 (.mk "i") (.mk "range(3)") [.brk 2] [.other 3 "Expr" []]) =
        addStmtListP {} [.brk 2]
          ++ [LTree.node (withLinenoText "[magenta]else[/]" (firstLineno [.other 3 "Expr" []]) false)
               (addStmtListP {} [.other 3 "Expr" []])] ∧
      addChildrenP {} (.whileStmt 1 (.mk "a") [.brk 2] [.other 3 "Expr" []]) =
        addStmtListP {} [.brk 2]
          ++ [LTree.node (withLinenoText "[magenta]else[/]" (firstLineno [.other 3 "Expr" []]) false)
               (addStmtListP {} [.other 3 "Expr" []])]) ∧
    (([] : List Stmt) = [] →
      addChildrenP {} (.forStmt 1 (.mk "i") (.mk "range(3)") [.brk 2] []) =
        addStmtListP {} [.brk 2] ∧
      addChildrenP {} (.whileStmt 1 (.mk "a") [.brk 2] []) = addStmtListP {} [.brk 2]) :=
  ⟨fun h => (loop_else_branch {} 1 (.mk "i") (.mk "range(3)") (.mk "a")
      [.brk 2] [.other 3 "Expr" []]).1 h,
   fun h => (loop_else_branch {} 1 (.mk "i") (.mk "range(3)") (.mk "a") [.brk 2] []).2 h⟩

/-- Claim C9: when a conditional's alternate branch is a single nested
conditional (an `elif` chain in source), the engine still creates the `else`
branch and nests the inner conditional inside it as a labeled child — the
chain is never flattened into siblings of the outer conditional. -/
theorem elif_nested_in_else_branch (cfg : Config) (ln : Nat) (t : PExpr)
    (body : List Stmt) (ln2 : Nat) (t2 : PExpr) (b2 o2 : List Stmt) :
    addChildrenP cfg (.ifStmt ln t body [.ifStmt ln2 t2 b2 o2]) =
      addStmtListP cfg body
        ++ [LTree.node (withLinenoText "[magenta]else[/]" (some ln2) cfg.showLineno)
             [LTree.node (labelP cfg.maxLen cfg.showLineno (.ifStmt ln2 t2 b2 o2))
               (addChildrenP cfg (.ifStmt ln2 t2 b2 o2))]] := by
  simp [addChildrenP, synthBranchP, addStmtListP, isLogical, Stmt.lineno]

/-- Claim C8: the build is deterministic — identical source (parsed body and
display name) and identical configuration produce identical trees. -/
theorem build_deterministic (name1 name2 : String) (cfg1 cfg2 : Config)
    (b1 b2 : List Stmt) (hn : name1 = name2) (hc : cfg1 = cfg2) (hb : b1 = b2) :
    buildTreeE name1 cfg1 b1 = buildTreeE name2 cfg2 b2 := by
  subst hn; subst hc; subst hb; rfl

/-- Concrete instance of C8. -/
theorem build_deterministic_witness :
    buildTreeE "m.py" {} [.ifStmt 1 (.mk "a") [.other 1 "Pass" []] []] =
      buildTreeE "m.py" {} [.ifStmt 1 (.mk "a") [.other 1 "Pass" []] []] :=
  build_deterministic "m.py" "m.py" {} {} _ _ rfl rfl rfl


mutual
theorem addChildrenP_nl_aux (cfg : Config) :
    ∀ s, isLogical cfg s = false →
      addChildrenP cfg s = (nlStmt cfg s).map fun t =>
        LTree.node (labelP cfg.maxLen cfg.showLineno t) (addChildrenP cfg t)
  | .other ln tn children, _ => by
      simpa [addChildrenP, nlStmt] using addStmtListP_nl_aux cfg children
  | .ret ln v, _ => by simp [addChildrenP, nlStmt]
  | .brk ln, _ => by simp [addChildrenP, nlStmt]
  | .cont ln, _ => by simp [addChildrenP, nlStmt]
  | .raiseStmt ln e c, _ => by simp [addChildrenP, nlStmt]
  | .classDef ln nm body, h => by simp [isLogical] at h
  | .funcDef ln nm body, h => by simp [isLogical] at h
  | .asyncFuncDef ln nm body, h => by simp [isLogical] at h
  | .ifStmt ln t body orelse, h => by simp [isLogical] at h
  | .forStmt ln tg it body orelse, h => by simp [isLogical] at h
  | .whileStmt ln t body orelse, h => by simp [isLogical] at h
  | .withStmt ln i1 items body, h => by simp [isLogical] at h
  | .tryStmt ln body handlers orelse finalbody, h => by simp [isLogical] at h
  | .matchStmt ln subj cases_, h => by simp [isLogical] at h
termination_by s => sizeOf s

theorem addStmtListP_nl_aux (cfg : Config) :
    ∀ l, addStmtListP cfg l = (nlList cfg l).map fun t =>
      LTree.node (labelP cfg.maxLen cfg.showLineno t) (addChildrenP cfg t)
  | [] => by simp [addStmtListP, nlList]
  | s :: rest => by
      by_cases hl : isLogical cfg s
      · simp [addStmtListP, nlList, hl, addStmtListP_nl_aux cfg rest]
      · simp [addStmtListP, nlList, hl, addStmtListP_nl_aux cfg rest,
          addChildrenP_nl_aux cfg s (by simpa using hl)]
termination_by l => sizeOf l
end

/-- Claim C7: the children a branch receives from a statement list are exactly
one node per *nearest* logical descendant, in document (pre-)order — a
non-logical intermediate statement is skipped through without re-parenting,
each retained node being labeled from, and recursively folded at, that very
statement. -/
theorem children_are_nearest_logicals (cfg : Config) (stmts : List Stmt) :
    addStmtListP cfg stmts = (nlList cfg stmts).map fun t =>
      LTree.node (labelP cfg.maxLen cfg.showLineno t) (addChildrenP cfg t) :=
  addStmtListP_nl_aux cfg stmts

theorem InsertsOnly.append {P : String → Prop} {a b c d : List LTree}
    (h1 : InsertsOnly P a b) (h2 : InsertsOnly P c d) :
    InsertsOnly P (a ++ c) (b ++ d) := by
  induction h1 with
  | nil => simpa using h2
  | keep hc ht ihc iht => exact .keep hc iht
  | insert hp ht ih => exact .insert hp ih

theorem withLinenoText_shape (t : String) (ln : Option Nat) (sl : Bool) :
    ∃ r, withLinenoText t ln sl = t ++ r := by
  cases sl with
  | false => exact ⟨"", by simp [withLinenoText]⟩
  | true =>
      cases ln with
      | none => exact ⟨"", by simp [withLinenoText]⟩
      | some n =>
          exact ⟨" [dim](L" ++ toString n ++ ")[/]",
            by simp [withLinenoText, String.append_assoc]⟩

theorem labelP_exit_shape (w : Nat) (sl : Bool) :
    (∀ ln v, ∃ r, labelP w sl (.ret ln v) = "[red]return[/]" ++ r) ∧
    (∀ ln, ∃ r, labelP w sl (.brk ln) = "[red]break[/]" ++ r) ∧
    (∀ ln, ∃ r, labelP w sl (.cont ln) = "[red]continue[/]" ++ r) ∧
    (∀ ln e c, ∃ r, labelP w sl (.raiseStmt ln e c) = "[red]raise[/]" ++ r) := by
  refine ⟨?_, ?_, ?_, ?_⟩
  · intro ln v
    cases v with
    | none => simp only [labelP]; exact withLinenoText_shape _ _ _
    | some x =>
        obtain ⟨r, hrw⟩ := withLinenoText_shape ("[red]return[/] " ++ exprProjP x w) (some ln) sl
        refine ⟨" " ++ exprProjP x w ++ r, ?_⟩
        simp only [labelP]
        rw [hrw]
        rfl
  · intro ln
    simp only [labelP]
    exact withLinenoText_shape _ _ _
  · intro ln
    simp only [labelP]
    exact withLinenoText_shape _ _ _
  · intro ln e c
    cases e with
    | none => simp only [labelP]; exact withLinenoText_shape _ _ _
    | some x =>
        cases c with
        | none =>
            obtain ⟨r, hrw⟩ := withLinenoText_shape ("[red]raise[/] " ++ exprProjP x w) (some ln) sl
            refine ⟨" " ++ exprProjP x w ++ r, ?_⟩
            simp only [labelP]
            rw [hrw]
            rfl
        | some y =>
            obtain ⟨r, hrw⟩ := withLinenoText_shape
              ("[red]raise[/] " ++ exprProjP x w ++ " from " ++ exprProjP y w) (some ln) sl
            refine ⟨" " ++ exprProjP x w ++ " from " ++ exprProjP y w ++ r, ?_⟩
            simp only [labelP]
            rw [hrw]
            rfl

theorem isLogical_mono (cfg1 cfg2 : Config)
    (he : cfg1.includeExits = true → cfg2.includeExits = true)
    (hr : cfg1.includeRaises = true → cfg2.includeRaises = true) :
    ∀ s, isLogical cfg1 s = true → isLogical cfg2 s = true := by
  intro s h
  cases s <;> simp only [isLogical] at h ⊢ <;> first | rfl | exact he h | exact hr h | exact h

theorem flip_case (cfg1 cfg2 : Config) (s : Stmt)
    (h1 : isLogical cfg1 s = false) (h2 : isLogical cfg2 s = true) :
    addChildrenP cfg1 s = [] ∧ addChildrenP cfg2 s = [] ∧
      redDropLabel cfg1.includeExits cfg1.includeRaises
        (labelP cfg2.maxLen cfg2.showLineno s) := by
  cases s with
  | classDef ln nm body => simp [isLogical] at h1
  | funcDef ln nm body => simp [isLogical] at h1
  | asyncFuncDef ln nm body => simp [isLogical] at h1
  | ifStmt ln t body orelse => simp [isLogical] at h1
  | forStmt ln tg it body orelse => simp [isLogical] at h1
  | whileStmt ln t body orelse => simp [isLogical] at h1
  | withStmt ln i1 items body => simp [isLogical] at h1
  | tryStmt ln body handlers orelse finalbody => simp [isLogical] at h1
  | matchStmt ln subj cases_ => simp [isLogical] at h1
  | other ln tn children => simp [isLogical] at h2
  | ret ln v =>
      simp only [isLogical] at h1
      obtain ⟨r, hrw⟩ := (labelP_exit_shape cfg2.maxLen cfg2.showLineno).1 ln v
      exact ⟨by simp [addChildrenP], by simp [addChildrenP], .inl ⟨h1, r, .inl hrw⟩⟩
  | brk ln =>
      simp only [isLogical] at h1
      obtain ⟨r, hrw⟩ := (labelP_exit_shape cfg2.maxLen cfg2.showLineno).2.1 ln
      exact ⟨by simp [addChildrenP], by simp [addChildrenP], .inl ⟨h1, r, .inr (.inl hrw)⟩⟩
  | cont ln =>
      simp only [isLogical] at h1
      obtain ⟨r, hrw⟩ := (labelP_exit_shape cfg2.maxLen cfg2.showLineno).2.2.1 ln
      exact ⟨by simp [addChildrenP], by simp [addChildrenP], .inl ⟨h1, r, .inr (.inr hrw)⟩⟩
  | raiseStmt ln e c =>
      simp only [isLogical] at h1
      obtain ⟨r, hrw⟩ := (labelP_exit_shape cfg2.maxLen cfg2.showLineno).2.2.2 ln e c
      exact ⟨by simp [addChildrenP], by simp [addChildrenP], .inr ⟨h1, r, hrw⟩⟩

mutual
theorem io_addChildren (cfg1 cfg2 : Config)
    (hm : cfg1.maxLen = cfg2.maxLen) (hs : cfg1.showLineno = cfg2.showLineno)
    (he : cfg1.includeExits = true → cfg2.includeExits = true)
    (hr : cfg1.includeRaises = true → cfg2.includeRaises = true) :
    ∀ s, InsertsOnly (redDropLabel cfg1.includeExits cfg1.includeRaises)
      (addChildrenP cfg1 s) (addChildrenP cfg2 s)
  | .tryStmt ln body handlers orelse finalbody => by
      simp only [addChildrenP]
      exact .append (.append (.append
        (io_addStmtList cfg1 cfg2 hm hs he hr body)
        (io_addHandlers cfg1 cfg2 hm hs he hr handlers))
        (io_synthBranch cfg1 cfg2 hm hs he hr "[magenta]else[/]" orelse))
        (io_synthBranch cfg1 cfg2 hm hs he hr "[magenta]finally[/]" finalbody)
  | .ifStmt ln t body orelse => by
      simp only [addChildrenP]
      exact .append (io_addStmtList cfg1 cfg2 hm hs he hr body)
        (io_synthBranch cfg1 cfg2 hm hs he hr "[magenta]else[/]" orelse)
  | .forStmt ln tg it body orelse => by
      simp only [addChildrenP]
      exact .append (io_addStmtList cfg1 cfg2 hm hs he hr body)
        (io_synthBranch cfg1 cfg2 hm hs he hr "[magenta]else[/]" orelse)
  | .whileStmt ln t body orelse => by
      simp only [addChildrenP]
      exact .append (io_addStmtList cfg1 cfg2 hm hs he hr body)
        (io_synthBranch cfg1 cfg2 hm hs he hr "[magenta]else[/]" orelse)
  | .classDef ln nm body => by
      simp only [addChildrenP]
      exact io_addStmtList cfg1 cfg2 hm hs he hr body
  | .funcDef ln nm body => by
      simp only [addChildrenP]
      exact io_addStmtList cfg1 cfg2 hm hs he hr body
  | .asyncFuncDef ln nm body => by
      simp only [addChildrenP]
      exact io_addStmtList cfg1 cfg2 hm hs he hr body
  | .withStmt ln i1 items body => by
      simp only [addChildrenP]
      exact io_addStmtList cfg1 cfg2 hm hs he hr body
  | .matchStmt ln subj cases_ => by
      simp only [addChildrenP]
      exact io_addCases cfg1 cfg2 hm hs he hr cases_
  | .ret ln v => by simp only [addChildrenP]; exact .nil
  | .brk ln => by simp only [addChildrenP]; exact .nil
  | .cont ln => by simp only [addChildrenP]; exact .nil
  | .raiseStmt ln e c => by simp only [addChildrenP]; exact .nil
  | .other ln tn children => by
      simp only [addChildrenP]
      exact io_addStmtList cfg1 cfg2 hm hs he hr children
termination_by s => (sizeOf s, 0)

theorem io_synthBranch (cfg1 cfg2 : Config)
    (hm : cfg1.maxLen = cfg2.maxLen) (hs : cfg1.showLineno = cfg2.showLineno)
    (he : cfg1.includeExits = true → cfg2.includeExits = true)
    (hr : cfg1.includeRaises = true → cfg2.includeRaises = true) (lbl : String) :
    ∀ l, InsertsOnly (redDropLabel cfg1.includeExits cfg1.includeRaises)
      (synthBranchP cfg1 lbl l) (synthBranchP cfg2 lbl l)
  | [] => by simp only [synthBranchP]; exact .nil
  | s :: rest => by
      simp only [synthBranchP]
      rw [hs]
      exact .keep (io_addStmtList cfg1 cfg2 hm hs he hr (s :: rest)) .nil
termination_by l => (sizeOf l, 1)

theorem io_addStmtList (cfg1 cfg2 : Config)
    (hm : cfg1.maxLen = cfg2.maxLen) (hs : cfg1.showLineno = cfg2.showLineno)
    (he : cfg1.includeExits = true → cfg2.includeExits = true)
    (hr : cfg1.includeRaises = true → cfg2.includeRaises = true) :
    ∀ l, InsertsOnly (redDropLabel cfg1.includeExits cfg1.includeRaises)
      (addStmtListP cfg1 l) (addStmtListP cfg2 l)
  | [] => by simp only [addStmtListP]; exact .nil
  | s :: rest => by
      have htail := io_addStmtList cfg1 cfg2 hm hs he hr rest
      by_cases hl1 : isLogical cfg1 s = true
      · have hl2 : isLogical cfg2 s = true := isLogical_mono cfg1 cfg2 he hr s hl1
        simp only [addStmtListP, hl1, hl2, if_true]
        rw [hm, hs]
        exact .append (.keep (io_addChildren cfg1 cfg2 hm hs he hr s) .nil) htail
      · by_cases hl2 : isLogical cfg2 s = true
        · obtain ⟨hc1, hc2, hP⟩ :=
            flip_case cfg1 cfg2 s (Bool.not_eq_true _ ▸ hl1) hl2
          simp only [addStmtListP, hl2, if_true]
          rw [if_neg hl1, hc1, hc2]
          simpa using InsertsOnly.insert hP htail
        · simp only [addStmtListP]
          rw [if_neg hl1, if_neg hl2]
          exact .append (io_addChildren cfg1 cfg2 hm hs he hr s) htail
termination_by l => (sizeOf l, 0)

theorem io_addHandlers (cfg1 cfg2 : Config)
    (hm : cfg1.maxLen = cfg2.maxLen) (hs : cfg1.showLineno = cfg2.showLineno)
    (he : cfg1.includeExits = true → cfg2.includeExits = true)
    (hr : cfg1.includeRaises = true → cfg2.includeRaises = true) :
    ∀ l, InsertsOnly (redDropLabel cfg1.includeExits cfg1.includeRaises)
      (addHandlersP cfg1 l) (addHandlersP cfg2 l)
  | [] => by simp only [addHandlersP]; exact .nil
  | .mk ln typ bound hbody :: rest => by
      simp only [addHandlersP]
      rw [hm, hs]
      exact .keep (io_addStmtList cfg1 cfg2 hm hs he hr hbody)
        (io_addHandlers cfg1 cfg2 hm hs he hr rest)
termination_by l => (sizeOf l, 0)

theorem io_addCases (cfg1 cfg2 : Config)
    (hm : cfg1.maxLen = cfg2.maxLen) (hs : cfg1.showLineno = cfg2.showLineno)
    (he : cfg1.includeExits = true → cfg2.includeExits = true)
    (hr : cfg1.includeRaises = true → cfg2.includeRaises = true) :
    ∀ l, InsertsOnly (redDropLabel cfg1.includeExits cfg1.includeRaises)
      (addCasesP cfg1 l) (addCasesP cfg2 l)
  | [] => by simp only [addCasesP]; exact .nil
  | .mk cbody :: rest => by
      simp only [addCasesP]
      exact .append (io_addStmtList cfg1 cfg2 hm hs he hr cbody)
        (io_addCases cfg1 cfg2 hm hs he hr rest)
termination_by l => (sizeOf l, 0)
end

/-- Claim C10: enabling `include_exits` or `include_raises` (with the other
options unchanged) is monotone: every node of the smaller configuration's
tree appears in the larger configuration's tree with the same label, the same
parent and the same relative order among previously present siblings, and the
larger tree differs only by inserted leaf nodes bearing exit/raise labels
(the kinds newly admitted by the enabled flags). -/
theorem flags_monotone_insertion (cfg1 cfg2 : Config)
    (hm : cfg1.maxLen = cfg2.maxLen) (hs : cfg1.showLineno = cfg2.showLineno)
    (he : cfg1.includeExits = true → cfg2.includeExits = true)
    (hr : cfg1.includeRaises = true → cfg2.includeRaises = true)
    (stmts : List Stmt) :
    InsertsOnly (redDropLabel cfg1.includeExits cfg1.includeRaises)
      (addStmtListP cfg1 stmts) (addStmtListP cfg2 stmts) :=
  io_addStmtList cfg1 cfg2 hm hs he hr stmts

/-- Concrete instance of C10: enabling `include_exits` on a loop body inserts
the `break` leaf and keeps the `else` branch in place. -/
theorem flags_monotone_insertion_witness :
    InsertsOnly (redDropLabel false false)
      (addStmtListP {} [.forStmt 1 (.mk "i") (.mk "xs") [.brk 2] [.other 3 "Expr" []]])
      (addStmtListP { includeExits := true }
        [.forStmt 1 (.mk "i") (.mk "xs") [.brk 2] [.other 3 "Expr" []]]) :=
  flags_monotone_insertion {} { includeExits := true } rfl rfl (fun _ => rfl) (fun h => h)
    [.forStmt 1 (.mk "i") (.mk "xs") [.brk 2] [.other 3 "Expr" []]]

/-- Claim C2 fails on the code: in static mode, `show_logic_map` does not
wrap `ast.parse` in any handler, so a parse failure propagates (raises) to
the caller instead of producing a tree with a parse-error child. -/
theorem parse_error_static_raises_cex :
    showLogicMapE "bad.py" (.error "invalid syntax (bad.py, line 1)") {} =
      .error "invalid syntax (bad.py, line 1)" := rfl

/-- Claim C2 amended: only the interactive mode (`LogicMapApp.compose`)
degrades a parse failure to a root with a single `SyntaxError: <msg>` child;
the static mode (`show_logic_map`) propagates the parse error to its caller
and builds no tree. -/
theorem parse_error_handling_amended :
    (∀ name msg, lmtCompose name (.error msg) =
      .node ("[bold bright_blue]" ++ name) [.node ("SyntaxError: " ++ msg) []]) ∧
    (∀ name msg cfg, showLogicMapE name (.error msg) cfg = .error msg) :=
  ⟨fun _ _ => rfl, fun _ _ _ => rfl⟩

/-! ## Properties of the `shorten` model (for the projector claims) -/

theorem pySplitGo_goodWords (l : List Char) :
    ∀ cur, (∀ c ∈ cur, pyIsSpace c = false) → ∀ wd ∈ pySplitGo cur l, goodWord wd := by
  induction l with
  | nil =>
      intro cur hcur wd hwd
      by_cases hc : cur.isEmpty
      · simp [pySplitGo, hc] at hwd
      · simp [pySplitGo, hc] at hwd
        subst hwd
        have hcne : cur ≠ [] := by simpa [List.isEmpty_iff] using hc
        exact ⟨by simpa using hcne, fun c hcm => hcur c (List.mem_reverse.mp hcm)⟩
  | cons c rest ih =>
      intro cur hcur wd hwd
      by_cases hs : pyIsSpace c
      · by_cases hc : cur.isEmpty
        · rw [pySplitGo, if_pos hs, if_pos hc] at hwd
          exact ih [] (by simp) wd hwd
        · rw [pySplitGo, if_pos hs, if_neg hc] at hwd
          rcases List.mem_cons.mp hwd with rfl | hwd
          · have hcne : cur ≠ [] := by simpa [List.isEmpty_iff] using hc
            exact ⟨by simpa using hcne, fun x hxm => hcur x (List.mem_reverse.mp hxm)⟩
          · exact ih [] (by simp) wd hwd
      · rw [pySplitGo, if_neg hs] at hwd
        refine ih (c :: cur) ?_ wd hwd
        intro x hx
        rcases List.mem_cons.mp hx with rfl | hx
        · exact Bool.not_eq_true _ ▸ by simpa using hs
        · exact hcur x hx

theorem pySplit_goodWords (l : List Char) : ∀ wd ∈ pySplit l, goodWord wd :=
  pySplitGo_goodWords l [] (by simp)

theorem intersperse_ne_nil {α : Type} (sep : α) {ws : List α} (h : ws ≠ []) :
    List.intersperse sep ws ≠ [] := by
  cases ws with
  | nil => exact absurd rfl h
  | cons a tl => cases tl <;> simp [List.intersperse]

theorem intersperse_getLast? {α : Type} (sep : α) :
    ∀ ws : List α, ws ≠ [] → (List.intersperse sep ws).getLast? = ws.getLast?
  | [], h => absurd rfl h
  | [a], _ => by simp [List.intersperse]
  | a :: b :: tl, _ => by
      rw [List.intersperse_cons_cons]
      have hne : List.intersperse sep (b :: tl) ≠ [] := intersperse_ne_nil sep (by simp)
      obtain ⟨x, xs, hx⟩ : ∃ x xs, List.intersperse sep (b :: tl) = x :: xs := by
        cases hxx : List.intersperse sep (b :: tl) with
        | nil => exact absurd hxx hne
        | cons x xs => exact ⟨x, xs, rfl⟩
      rw [hx, List.getLast?_cons_cons, List.getLast?_cons_cons, ← hx,
        intersperse_getLast? sep (b :: tl) (by simp), List.getLast?_cons_cons]

theorem sumLen_cons (c : List Char) (cs : List (List Char)) :
    sumLen (c :: cs) = c.length + sumLen cs := by simp [sumLen]

theorem sumLen_nil : sumLen [] = 0 := rfl

theorem sumLen_append (a b : List (List Char)) : sumLen (a ++ b) = sumLen a + sumLen b := by
  simp [sumLen]

theorem sumLen_reverse (cs : List (List Char)) : sumLen cs.reverse = sumLen cs := by
  simp [sumLen, List.sum_reverse]

theorem flatten_length (cs : List (List Char)) : cs.flatten.length = sumLen cs := by
  simp [sumLen]

theorem greedy_append (w : Nat) :
    ∀ (cs : List (List Char)) (cur : Nat), (greedy w cur cs).1 ++ (greedy w cur cs).2 = cs
  | [], _ => rfl
  | c :: rest, cur => by
      by_cases h : cur + c.length ≤ w
      · simp [greedy, h, greedy_append w rest (cur + c.length)]
      · simp [greedy, h]

theorem greedy_sumLen_le (w : Nat) :
    ∀ (cs : List (List Char)) (cur : Nat), cur ≤ w → cur + sumLen (greedy w cur cs).1 ≤ w
  | [], cur, h => by simpa [greedy, sumLen] using h
  | c :: rest, cur, h => by
      by_cases hc : cur + c.length ≤ w
      · have ih := greedy_sumLen_le w rest (cur + c.length) hc
        simp only [greedy, if_pos hc, sumLen_cons]
        omega
      · simpa [greedy, hc, sumLen] using h

theorem greedy_all (w : Nat) :
    ∀ (cs : List (List Char)) (cur : Nat), cur + sumLen cs ≤ w → greedy w cur cs = (cs, [])
  | [], cur, _ => rfl
  | c :: rest, cur, h => by
      rw [sumLen_cons] at h
      have hc : cur + c.length ≤ w := by omega
      have ih := greedy_all w rest (cur + c.length) (by omega)
      simp [greedy, hc, ih]

theorem placeLoop_spec (w : Nat) :
    ∀ r kept : List (List Char), placeLoop w r = some kept → sumLen kept + 3 ≤ w := by
  intro r
  induction r with
  | nil => intro kept h; simp [placeLoop] at h
  | cons c rest ih =>
      intro kept h
      rw [placeLoop] at h
      split at h
      · rename_i hcond
        injection h with h'
        subst h'
        have := (Bool.and_eq_true _ _).mp hcond |>.2
        simpa [phChars] using of_decide_eq_true this
      · exact ih kept h

theorem dropTrailWs_cons_good (x : List Char) (xs : List (List Char)) (hx : goodWord x) :
    ∃ ys, dropTrailWs (x :: xs) = x :: ys := by
  obtain ⟨hne, hnw⟩ := hx
  have hallx : x.all pyIsSpace = false := by
    cases x with
    | nil => exact absurd rfl hne
    | cons c0 cr =>
        have h0 : pyIsSpace c0 = false := hnw c0 (by simp)
        simp [List.all_cons, h0]
  cases xs with
  | nil =>
      refine ⟨[], ?_⟩
      rw [dropTrailWs]
      simp [hallx]
  | cons y ys =>
      have hlw := List.getLast?_eq_getLast_of_ne_nil (l := x :: y :: ys) (by simp)
      by_cases hall : ((x :: y :: ys).getLast (by simp)).all pyIsSpace
      · refine ⟨(y :: ys).dropLast, ?_⟩
        rw [dropTrailWs, hlw]
        simp only [hall, if_true]
        exact List.dropLast_cons₂
      · refine ⟨y :: ys, ?_⟩
        rw [dropTrailWs, hlw]
        simp only [hall]
        simp

theorem goodWord_all_false {x : List Char} (hx : goodWord x) : x.all pyIsSpace = false := by
  obtain ⟨hne, hnw⟩ := hx
  cases x with
  | nil => exact absurd rfl hne
  | cons c0 cr =>
      have h0 : pyIsSpace c0 = false := hnw c0 (by simp)
      simp [List.all_cons, h0]

theorem goodWord_take {x : List Char} (n : Nat) (hn : n ≠ 0) (hx : goodWord x) :
    goodWord (x.take n) := by
  obtain ⟨hne, hnw⟩ := hx
  exact ⟨by simp [List.take_eq_nil_iff, hn, hne],
    fun c hc => hnw c (List.mem_of_mem_take hc)⟩

theorem goodWord_drop {x : List Char} (n : Nat) (hn : n < x.length) (hx : goodWord x) :
    goodWord (x.drop n) := by
  obtain ⟨hne, hnw⟩ := hx
  refine ⟨?_, fun c hc => hnw c (List.mem_of_mem_drop hc)⟩
  simp only [ne_eq, List.drop_eq_nil_iff]
  omega

theorem dropTrailWs_eq_self (line : List (List Char))
    (h : ∀ lw, line.getLast? = some lw → goodWord lw) : dropTrailWs line = line := by
  rw [dropTrailWs]
  cases hg : line.getLast? with
  | none => rfl
  | some lw => simp [goodWord_all_false (h lw hg)]

theorem longWord_head (w : Nat) (len0 : Nat) (x : List Char) (xs rest : List (List Char)) :
    ∃ ys, (longWord w (x :: xs) len0 rest).1 = x :: ys := by
  cases rest with
  | nil => exact ⟨xs, rfl⟩
  | cons r rs =>
      by_cases hr : w < r.length
      · exact ⟨xs ++ [r.take (w - len0)], by simp [longWord, hr]⟩
      · exact ⟨xs, by simp [longWord, hr]⟩

theorem longWord_rest (w : Nat) (len0 : Nat) (line : List (List Char))
    (r : List Char) (rs : List (List Char)) :
    ∃ r', (longWord w line len0 (r :: rs)).2 = r' :: rs ∧
      (r' = r ∨ (r' = r.drop (w - len0) ∧ w < r.length)) := by
  by_cases hr : w < r.length
  · exact ⟨r.drop (w - len0), by simp [longWord, hr], .inr ⟨rfl, hr⟩⟩
  · exact ⟨r, by simp [longWord, hr], .inl rfl⟩

/-- Staging equation: `shortenCore` in terms of the intermediate stages. -/
theorem shortenCore_eq (w : Nat) (chunks tk rst line1 rest1 line2 : List (List Char))
    (h1 : greedy w 0 chunks = (tk, rst))
    (h2 : longWord w tk (sumLen tk) rst = (line1, rest1))
    (h3 : dropTrailWs line1 = line2) :
    shortenCore w chunks =
      match line2 with
      | [] => []
      | _ :: _ =>
          if rest1.isEmpty || (rest1.length == 1 && (rest1.headD []).all pyIsSpace) then
            line2.flatten
          else
            match placeLoop w line2.reverse with
            | some kept => kept.reverse.flatten ++ phChars
            | none => ['…', ' '] := by
  simp only [shortenCore, h1, h2, h3]
  cases line2 <;> rfl

/-- When the collapsed text fits (total chunk length at most `w`) the result
is the collapsed text itself. -/
theorem shortenCore_fits (w : Nat) (chunks : List (List Char))
    (hfit : sumLen chunks ≤ w)
    (hlast : ∀ lw, chunks.getLast? = some lw → goodWord lw) :
    shortenCore w chunks = chunks.flatten := by
  have h1 : greedy w 0 chunks = (chunks, []) := greedy_all w chunks 0 (by omega)
  have h2 : longWord w chunks (sumLen chunks) [] = (chunks, []) := rfl
  have h3 : dropTrailWs chunks = chunks := dropTrailWs_eq_self chunks hlast
  rw [shortenCore_eq w chunks chunks [] chunks [] chunks h1 h2 h3]
  cases chunks with
  | nil => rfl
  | cons c cs => simp

/-- When the collapsed text overflows `w ≥ 2`, the result is at most `w`
characters and ends in the placeholder tail `"… "`. -/
theorem shortenCore_overflow (w : Nat) (hw : 2 ≤ w) (c0 : List Char)
    (rest0 : List (List Char)) (hc0 : goodWord c0)
    (hlast : ∀ lw, (c0 :: rest0).getLast? = some lw → goodWord lw)
    (hover : w < sumLen (c0 :: rest0)) :
    (shortenCore w (c0 :: rest0)).length ≤ w ∧
      ∃ p, shortenCore w (c0 :: rest0) = p ++ ['…', ' '] := by
  obtain ⟨tk, rst, hg⟩ : ∃ a b, greedy w 0 (c0 :: rest0) = (a, b) := ⟨_, _, rfl⟩
  have happ : tk ++ rst = c0 :: rest0 := by
    have h := greedy_append w (c0 :: rest0) 0
    rw [hg] at h
    exact h
  have hle : sumLen tk ≤ w := by
    have h := greedy_sumLen_le w (c0 :: rest0) 0 (by omega)
    rw [hg] at h
    simpa using h
  have hsum : sumLen tk + sumLen rst = sumLen (c0 :: rest0) := by
    rw [← happ, sumLen_append]
  have hrstne : rst ≠ [] := by
    intro hnil
    rw [hnil, sumLen_nil] at hsum
    omega
  obtain ⟨r, rs, rfl⟩ : ∃ r rs, rst = r :: rs := by
    cases rst with
    | nil => exact absurd rfl hrstne
    | cons r rs => exact ⟨r, rs, rfl⟩
  -- the line after long-word handling starts with a good word
  have hline1 : ∃ h0 hrest1, (longWord w tk (sumLen tk) (r :: rs)).1 = h0 :: hrest1 ∧ goodWord h0 := by
    cases htk2 : tk with
    | nil =>
        subst htk2
        obtain ⟨rfl, rfl⟩ : r = c0 ∧ rs = rest0 := by simpa using happ
        have hbig : w < r.length := by
          by_contra hfit
          push_neg at hfit
          simp only [greedy] at hg
          rw [if_pos (by omega)] at hg
          simp at hg
        refine ⟨r.take (w - sumLen []), [], ?_, ?_⟩
        · simp [longWord, hbig]
        · exact goodWord_take _ (by rw [sumLen_nil]; omega) hc0
    | cons t0 tk2 =>
        subst htk2
        have ht0 : t0 = c0 := by simpa using congrArg List.head? happ
        obtain ⟨ys, hys⟩ := longWord_head w (sumLen (t0 :: tk2)) t0 tk2 (r :: rs)
        exact ⟨t0, ys, hys, ht0 ▸ hc0⟩
  obtain ⟨h0, hrest1, hl1, hh0⟩ := hline1
  obtain ⟨ys2, hys2⟩ := dropTrailWs_cons_good h0 hrest1 hh0
  obtain ⟨r', hr'eq, hcase⟩ := longWord_rest w (sumLen tk) tk r rs
  have h2 : longWord w tk (sumLen tk) (r :: rs) = (h0 :: hrest1, r' :: rs) := by
    rw [← hl1, ← hr'eq]
  rw [shortenCore_eq w (c0 :: rest0) tk (r :: rs) (h0 :: hrest1) (r' :: rs) (h0 :: ys2)
    hg h2 hys2]
  -- the placeholder branch is taken
  have hcond : ((r' :: rs).isEmpty
      || ((r' :: rs).length == 1 && ((r' :: rs).headD []).all pyIsSpace)) = false := by
    cases rs with
    | cons a as => simp
    | nil =>
        have hlastr : goodWord r := by
          refine hlast r ?_
          rw [← happ]
          exact List.getLast?_concat tk
        have hr'good : goodWord r' := by
          rcases hcase with rfl | ⟨rfl, hwr⟩
          · exact hlastr
          · exact goodWord_drop _ (by omega) hlastr
        simp [goodWord_all_false hr'good]
  rw [hcond]
  simp only [Bool.false_eq_true, if_false]
  cases hpl : placeLoop w (h0 :: ys2).reverse with
  | some kept =>
      have hkle : sumLen kept + 3 ≤ w := placeLoop_spec w _ kept hpl
      constructor
      · rw [List.length_append, flatten_length, sumLen_reverse]
        simp only [phChars, List.length_cons, List.length_nil]
        omega
      · exact ⟨kept.reverse.flatten ++ [' '], by simp [phChars]⟩
  | none =>
      exact ⟨by simpa using hw, [], by simp⟩

theorem toChunks_head (l : List Char) (w0 : List Char) (ws' : List (List Char))
    (h : pySplit l = w0 :: ws') : ∃ rest0, toChunks l = w0 :: rest0 := by
  rw [toChunks, h]
  cases ws' with
  | nil => exact ⟨[], by simp [List.intersperse]⟩
  | cons b tl => exact ⟨[' '] :: List.intersperse [' '] (b :: tl), by simp [List.intersperse]⟩

theorem toChunks_last_good (l : List Char) (hne : pySplit l ≠ []) :
    ∀ lw, (toChunks l).getLast? = some lw → goodWord lw := by
  intro lw hlw
  rw [toChunks, intersperse_getLast? _ _ hne] at hlw
  obtain ⟨hx, heq⟩ := List.mem_getLast?_eq_getLast (Option.mem_def.mpr hlw)
  exact heq ▸ pySplit_goodWords l _ (List.getLast_mem hx)

theorem collapseWs_length (l : List Char) :
    (collapseWs l).length = sumLen (toChunks l) := flatten_length _

/-- Claim C3 fails on the code: at `max_len = 12` the 15-character one-line
rendering `hello world foo` projects to `"hello … "`, whose length is 8, not
12 — `textwrap.shorten` truncates at word boundaries, so the result length is
generally smaller than `max_len`. -/
theorem project_exact_length_cex :
    exprProjE (.mk "hello world foo") 12 = .ok "hello … " ∧
    12 < (collapseWs (replaceNl (unparse (.mk "hello world foo")).data)).length ∧
    ("hello … " : String).length ≠ 12 := by
  refine ⟨rfl, by decide, by decide⟩

/-- Claim C3 amended: for `max_len ≥ 2`, when the collapsed one-line
rendering of the expression is longer than `max_len`, the projector returns
(without raising) a string of length *at most* `max_len` that ends in the
ellipsis marker (`…` followed by the placeholder's trailing space); the
length is not exactly `max_len` in general. -/
theorem project_truncation_amended (e : PExpr) (w : Nat) (hw : 2 ≤ w)
    (hover : w < (collapseWs (replaceNl (unparse e).data)).length) :
    ∃ r, exprProjE e w = .ok r ∧ r.length ≤ w ∧ ∃ p, r.data = p ++ ['…', ' '] := by
  refine ⟨exprProjP e w, exprProjE_ok e w hw, ?_⟩
  obtain ⟨w0, ws', hws⟩ : ∃ w0 ws',
      pySplit (replaceNl (unparse e).data) = w0 :: ws' := by
    cases hps : pySplit (replaceNl (unparse e).data) with
    | nil =>
        exfalso
        rw [collapseWs_length, toChunks, hps] at hover
        simp [List.intersperse, sumLen] at hover
    | cons a b => exact ⟨a, b, rfl⟩
  obtain ⟨rest0, hch⟩ := toChunks_head _ w0 ws' hws
  have hc0 : goodWord w0 := pySplit_goodWords _ w0 (by rw [hws]; simp)
  have hlast := toChunks_last_good (replaceNl (unparse e).data) (by rw [hws]; simp)
  rw [hch] at hlast
  have hover2 : w < sumLen (w0 :: rest0) := by
    rw [collapseWs_length, hch] at hover
    exact hover
  have hmain := shortenCore_overflow w hw w0 rest0 hc0 hlast hover2
  have hdata : (exprProjP e w).data = shortenCore w (w0 :: rest0) := by
    rw [← hch]; rfl
  have hlen : (exprProjP e w).length = (shortenCore w (w0 :: rest0)).length := by
    rw [← hch]; rfl
  refine ⟨by rw [hlen]; exact hmain.1, ?_⟩
  obtain ⟨p, hp⟩ := hmain.2
  exact ⟨p, hdata.trans hp⟩

/-- Concrete instance of the amended C3 at `max_len = 10` on a 22-character
expression. -/
theorem project_truncation_amended_witness :
    (2 ≤ 10 ∧ 10 < (collapseWs (replaceNl (unparse (.mk "alpha beta gamma delta")).data)).length) ∧
    ∃ r, exprProjE (.mk "alpha beta gamma delta") 10 = .ok r ∧
      r.length ≤ 10 ∧ ∃ p, r.data = p ++ ['…', ' '] :=
  ⟨⟨by decide, by decide⟩,
    project_truncation_amended (.mk "alpha beta gamma delta") 10 (by decide) (by decide)⟩

/-- Claim C4 fails on the code: at `max_len = 1` (which the claim admits,
requiring only `max_len ≥ 1`) `shorten` raises
`ValueError("placeholder too large for max width")` before looking at the
text, so `_expr` raises rather than returning a best-effort truncation. -/
theorem project_min_width_raises_cex :
    exprProjE (.mk "a") 1 = .error "placeholder too large for max width" ∧
    (1 : Nat) ≥ 1 := ⟨rfl, le_refl 1⟩

/-- Claim C4 amended: the projector never raises only for `max_len ≥ 2`
(widths 1 and 0 — and negative ones in Python — raise `ValueError` from
`shorten`); for `max_len ≥ 2` and an expression whose collapsed one-line
rendering is non-empty, it returns a non-empty string. -/
theorem project_total_amended (e : PExpr) (w : Nat) (hw : 2 ≤ w)
    (hne : collapseWs (replaceNl (unparse e).data) ≠ []) :
    ∃ r, exprProjE e w = .ok r ∧ r ≠ "" := by
  refine ⟨exprProjP e w, exprProjE_ok e w hw, ?_⟩
  obtain ⟨w0, ws', hws⟩ : ∃ w0 ws',
      pySplit (replaceNl (unparse e).data) = w0 :: ws' := by
    cases hps : pySplit (replaceNl (unparse e).data) with
    | nil =>
        exfalso
        exact hne (by rw [collapseWs, toChunks, hps]; simp)
    | cons a b => exact ⟨a, b, rfl⟩
  obtain ⟨rest0, hch⟩ := toChunks_head _ w0 ws' hws
  have hc0 : goodWord w0 := pySplit_goodWords _ w0 (by rw [hws]; simp)
  have hlast := toChunks_last_good (replaceNl (unparse e).data) (by rw [hws]; simp)
  rw [hch] at hlast
  have hcore : shortenCore w (w0 :: rest0) ≠ [] := by
    by_cases hfit : sumLen (w0 :: rest0) ≤ w
    · rw [shortenCore_fits w _ hfit hlast]
      simp [List.flatten_cons, hc0.1]
    · push_neg at hfit
      obtain ⟨p, hp⟩ := (shortenCore_overflow w hw w0 rest0 hc0 hlast hfit).2
      rw [hp]
      simp
  have hdata : (exprProjP e w).data = shortenCore w (w0 :: rest0) := by
    rw [← hch]; rfl
  intro hempty
  exact hcore (by rw [← hdata, hempty])

/-- Concrete instance of the amended C4 at `max_len = 2`. -/
theorem project_total_amended_witness :
    (2 ≤ 2 ∧ collapseWs (replaceNl (unparse (.mk "x + y")).data) ≠ []) ∧
    ∃ r, exprProjE (.mk "x + y") 2 = .ok r ∧ r ≠ "" :=
  ⟨⟨by decide, by decide⟩, project_total_amended (.mk "x + y") 2 (by decide) (by decide)⟩

/-- Claim C5 fails on the code: `show_logic_map` performs no configuration
validation at all — with `max_expr_len = 0` a module containing only a
function definition (whose label never invokes the Expression Projector)
builds and renders a complete, visible tree instead of being rejected. -/
theorem zero_width_not_rejected_cex :
    buildTreeE "m.py" { maxLen := 0 } [.funcDef 1 "f" [.other 2 "Pass" []]] =
      .ok (.node "[bold bright_blue]m.py" [.node "[green]def[/] [bold]f()" []]) := by
  simp [buildTreeE, addStmtListE, addChildrenE, labelE, isLogical, withLinenoText,
    bind, Except.bind, pure, Except.pure]

/-- Claim C5 amended: a zero (or, in Python, negative) `max_expr_len` is not
rejected at configuration time; the `ValueError` from the projector's
`shorten` call arises only if and when some label projects an expression
during the traversal itself, and a source needing no projection renders
fully.  (Since `show_logic_map` prints only after the build returns, the
mid-build error still yields no partial visible tree.) -/
theorem zero_width_lazy_failure_amended :
    buildTreeE "m.py" { maxLen := 0 } [.ifStmt 1 (.mk "a") [.other 1 "Pass" []] []] =
      .error "invalid width 0 (must be > 0)" ∧
    buildTreeE "g.py" { maxLen := 0 } [.classDef 1 "C" [.funcDef 2 "m" [.other 3 "Pass" []]]] =
      .ok (.node "[bold bright_blue]g.py"
        [.node "[cyan]class[/] [bold]C" [.node "[green]def[/] [bold]m()" []]]) := by
  constructor <;>
    simp [buildTreeE, addStmtListE, addChildrenE, labelE, isLogical, withLinenoText,
      exprProjE, pyShorten, bind, Except.bind, pure, Except.pure]

end LogicMap
